import Mathlib

/-!
Verification development for govanity (src/main.go).

The program's string-level logic is shallowly embedded here. Go strings are
modelled as lists of characters (`Str`); the ASCII byte comparisons of the Go
standard library become comparisons on `Char.toNat`. Fallible operations
return `Option`; a Go panic (out-of-range slice index) is modelled as `none`
of an outer `Option`. All definitions are executable.
-/

/-- Go strings, modelled as lists of characters. The program only ever
handles ASCII data (import paths, URLs, file paths), where one Go byte is one
`Char`. -/
abbrev Str := List Char

/-- Character class `a-z A-Z`, as Go writes it with byte comparisons
(`'a' <= c && c <= 'z' || 'A' <= c && c <= 'Z'`; 97, 122, 65, 90 are the
code points of those four letters). -/
def isAlpha (c : Char) : Bool :=
  (97 ≤ c.toNat && c.toNat ≤ 122) || (65 ≤ c.toNat && c.toNat ≤ 90)

/-- Character class `0-9` (`'0' <= c && c <= '9'`; code points 48 and 57). -/
def isDigit (c : Char) : Bool :=
  48 ≤ c.toNat && c.toNat ≤ 57

/-- Model of net/url `stringContainsCTLByte`'s per-byte test:
`b < ' ' || b == 0x7f`. -/
def isCtlByte (c : Char) : Bool :=
  c.toNat < 32 || c.toNat == 127

/-- Model of Go `strings.HasPrefix s pre`. -/
def hasPrefix (s pre : Str) : Bool :=
  match pre, s with
  | [], _ => true
  | _ :: _, [] => false
  | y :: ys, x :: xs => if x = y then hasPrefix xs ys else false

/-- Model of Go `strings.Contains s (string c)` for a one-character substring. -/
def strContains (c : Char) : Str → Bool
  | [] => false
  | x :: xs => if x = c then true else strContains c xs

/-- Model of Go `strings.TrimPrefix`. -/
def trimPrefix (s pre : Str) : Str :=
  if hasPrefix s pre then s.drop pre.length else s

/-- Model of Go `strings.TrimLeft` with an explicit cutset list. -/
def trimLeftIn (cutset : List Char) : Str → Str
  | [] => []
  | c :: rest => if cutset.contains c then trimLeftIn cutset rest else c :: rest

/-- Model of net/url's internal `split(s, c, true)`: cut at the first
occurrence of `c`, dropping it; `(s, "")` when `c` does not occur. -/
def splitFirst (c : Char) : Str → Str × Str
  | [] => ([], [])
  | x :: xs =>
    if x = c then ([], xs)
    else
      let p := splitFirst c xs
      (x :: p.1, p.2)

/-- Model of Go `strings.Split s (string c)` for a one-character separator:
the list of separator-free chunks, always at least one. -/
def goSplit (c : Char) (s : Str) : List Str := s.splitOn c

/-- Model of Go `strings.Join` with a one-character separator. -/
def goJoin (c : Char) (L : List Str) : Str := List.intercalate [c] L

theorem goSplit_cons (c x : Char) (xs : Str) :
    goSplit c (x :: xs) =
      if x = c then [] :: goSplit c xs else (goSplit c xs).modifyHead (x :: ·) := by
  simp only [goSplit, List.splitOn, List.splitOnP_cons, beq_iff_eq]

theorem goSplit_ne_nil (c : Char) (s : Str) : goSplit c s ≠ [] :=
  List.splitOnP_ne_nil _ s

theorem goJoin_goSplit (c : Char) (s : Str) : goJoin c (goSplit c s) = s :=
  List.intercalate_splitOn s c

theorem goSplit_goJoin (c : Char) (L : List Str) (hx : ∀ l ∈ L, c ∉ l)
    (hL : L ≠ []) : goSplit c (goJoin c L) = L :=
  List.splitOn_intercalate L c hx hL

theorem goJoin_cons (c : Char) (a : Str) (rest : List Str) :
    goJoin c (a :: rest) =
      if rest = [] then a else a ++ c :: goJoin c rest := by
  cases rest with
  | nil => simp [goJoin, List.intercalate]
  | cons b bs => simp [goJoin, List.intercalate, List.intersperse_cons_cons]

theorem strContains_eq_false_iff (c : Char) (s : Str) :
    strContains c s = false ↔ c ∉ s := by
  induction s with
  | nil => simp [strContains]
  | cons x xs ih =>
    by_cases hx : x = c
    · simp [strContains, hx]
    · have h1 : strContains c (x :: xs) = strContains c xs := by
        simp [strContains, hx]
      rw [h1, ih]
      constructor
      · intro h hm
        rcases List.mem_cons.mp hm with he | hm'
        · exact hx he.symm
        · exact h hm'
      · intro h hm
        exact h (List.mem_cons_of_mem _ hm)

theorem goSplit_of_not_contains (c : Char) (s : Str)
    (h : strContains c s = false) : goSplit c s = [s] := by
  refine List.splitOnP_eq_single _ _ ?_
  intro x hx hbeq
  rw [beq_iff_eq] at hbeq
  exact (strContains_eq_false_iff c s).mp h (hbeq ▸ hx)

theorem mem_of_mem_goSplit {c : Char} {s t : Str} {x : Char}
    (hs : t ∈ goSplit c s) (hx : x ∈ t) : x ∈ s := by
  induction s generalizing t with
  | nil =>
    simp only [goSplit, List.splitOn_nil, List.mem_singleton] at hs
    subst hs
    simp at hx
  | cons y ys ih =>
    rw [goSplit_cons] at hs
    by_cases hy : y = c
    · rw [if_pos hy] at hs
      rcases List.mem_cons.mp hs with rfl | hs'
      · simp at hx
      · exact List.mem_cons_of_mem _ (ih hs' hx)
    · rw [if_neg hy] at hs
      rcases h : goSplit c ys with _ | ⟨u, us⟩
      · exact absurd h (goSplit_ne_nil c ys)
      · rw [h] at hs
        simp only [List.modifyHead] at hs
        rcases List.mem_cons.mp hs with rfl | hs'
        · rcases List.mem_cons.mp hx with rfl | hx'
          · exact List.mem_cons_self _ _
          · exact List.mem_cons_of_mem _
              (ih (by rw [h]; exact List.mem_cons_self u us) hx')
        · exact List.mem_cons_of_mem _
            (ih (by rw [h]; exact List.mem_cons_of_mem u hs') hx)

theorem mem_of_mem_goJoin {c : Char} {L : List Str} {x : Char}
    (hx : x ∈ goJoin c L) : (∃ s ∈ L, x ∈ s) ∨ x = c := by
  induction L with
  | nil => simp [goJoin, List.intercalate] at hx
  | cons s ss ih =>
    rw [goJoin_cons] at hx
    by_cases hss : ss = []
    · rw [if_pos hss] at hx
      exact Or.inl ⟨s, List.mem_cons_self _ _, hx⟩
    · rw [if_neg hss] at hx
      rcases List.mem_append.mp hx with h | h
      · exact Or.inl ⟨s, List.mem_cons_self _ _, h⟩
      · rcases List.mem_cons.mp h with rfl | h'
        · exact Or.inr rfl
        · rcases ih h' with ⟨u, hu, hxu⟩ | rfl
          · exact Or.inl ⟨u, List.mem_cons_of_mem _ hu, hxu⟩
          · exact Or.inr rfl

theorem splitFirst_of_not_contains (c : Char) (s : Str)
    (h : strContains c s = false) : splitFirst c s = (s, []) := by
  induction s with
  | nil => rfl
  | cons x xs ih =>
    simp only [strContains] at h
    by_cases hx : x = c
    · rw [if_pos hx] at h
      exact absurd h (by simp)
    · rw [if_neg hx] at h
      simp [splitFirst, hx, ih h]

theorem mem_of_mem_splitFirst_fst {c : Char} {s : Str} {x : Char}
    (hx : x ∈ (splitFirst c s).1) : x ∈ s := by
  induction s with
  | nil => simp [splitFirst] at hx
  | cons y ys ih =>
    simp only [splitFirst] at hx
    by_cases hy : y = c
    · rw [if_pos hy] at hx
      simp at hx
    · rw [if_neg hy] at hx
      rcases List.mem_cons.mp hx with rfl | hx'
      · exact List.mem_cons_self _ _
      · exact List.mem_cons_of_mem _ (ih hx')

theorem hasPrefix_nil (s : Str) : hasPrefix s [] = true := by
  cases s <;> rfl

theorem hasPrefix_append (p t : Str) : hasPrefix (p ++ t) p = true := by
  induction p with
  | nil => simp [hasPrefix_nil]
  | cons x xs ih => simpa [hasPrefix] using ih

theorem drop_length_append (p t : Str) : (p ++ t).drop p.length = t := by
  induction p with
  | nil => rfl
  | cons x xs ih => simp

theorem trimPrefix_append (p t : Str) : trimPrefix (p ++ t) p = t := by
  simp [trimPrefix, hasPrefix_append, drop_length_append]

/-! ### Model of net/url (the subset the program exercises)

`vanityImport.ImportPrefix` (main.go:306) and `config.Parse` (main.go:157)
call `url.Parse`, and `ImportPrefix` renders the result with `URL.String`.
The model below transcribes those net/url functions for ASCII input, with
these documented simplifications: bracketed IPv6 hosts are accepted whenever
the closing bracket is present, percent-escapes in hosts and userinfo are
checked only for hex validity, and percent-decoding treats every character
as one byte. No theorem below depends on the simplified corners. -/

/-- Hex digit value of a character, as net/url `unhex`. -/
def hexVal (c : Char) : Option Nat :=
  if 48 ≤ c.toNat && c.toNat ≤ 57 then some (c.toNat - 48)
  else if 97 ≤ c.toNat && c.toNat ≤ 102 then some (c.toNat - 87)
  else if 65 ≤ c.toNat && c.toNat ≤ 70 then some (c.toNat - 55)
  else none

/-- Upper-case hex digit, as net/url's `upperhex` table. -/
def hexDigitUpper (n : Nat) : Char :=
  if n < 10 then Char.ofNat (48 + n) else Char.ofNat (55 + n)

/-- Model of net/url `unescape` (percent-decoding; mode-specific rejections
beyond hex validity are not modelled). -/
def unescapePercent : Str → Option Str
  | [] => some []
  | c :: rest =>
    if c = '%' then
      match rest with
      | a :: b :: rest2 =>
        match hexVal a, hexVal b with
        | some ha, some hb => (unescapePercent rest2).map (Char.ofNat (16 * ha + hb) :: ·)
        | _, _ => none
      | _ => none
    else (unescapePercent rest).map (c :: ·)

/-- Unescaped characters of net/url's `encodePath` mode: alphanumerics,
`-._~`, and the sub-delimiters Go leaves alone in paths (all of
`$&+,/:;=?@` except `?`). -/
def isPathUnescaped (c : Char) : Bool :=
  isAlpha c || isDigit c ||
    ['-', '_', '.', '~'].contains c ||
    ['$', '&', '+', ',', '/', ':', ';', '=', '@'].contains c

/-- Unescaped characters of `encodeFragment`: as for paths, plus `?`. -/
def isFragmentUnescaped (c : Char) : Bool :=
  isPathUnescaped c || ['?'].contains c

/-- Unescaped characters of `encodeHost`. -/
def isHostUnescaped (c : Char) : Bool :=
  isAlpha c || isDigit c ||
    ['-', '_', '.', '~'].contains c ||
    ['!', '$', '&', Char.ofNat 39, '(', ')', '*', '+', ',', ';', '=', ':',
      '[', ']', '<', '>', Char.ofNat 34].contains c

/-- Unescaped characters of `encodeUserPassword`. -/
def isUserUnescaped (c : Char) : Bool :=
  isAlpha c || isDigit c ||
    ['-', '_', '.', '~'].contains c ||
    ['$', '&', '+', ',', ';', '='].contains c

/-- Model of net/url `escape` with the given unescaped-character predicate
(percent-encoding with upper-case hex, byte by byte). -/
def escapeWith (unesc : Char → Bool) : Str → Str
  | [] => []
  | c :: rest =>
    if unesc c then c :: escapeWith unesc rest
    else '%' :: hexDigitUpper (c.toNat / 16 % 16) :: hexDigitUpper (c.toNat % 16)
      :: escapeWith unesc rest

/-- Model of net/url `validEncoded` with the given mode predicate. -/
def validEncodedWith (unesc : Char → Bool) (s : Str) : Bool :=
  s.all fun c =>
    ['!', '$', '&', Char.ofNat 39, '(', ')', '*', '+', ',', ';', '=', ':',
      '@', '[', ']', '%'].contains c || unesc c

/-- Model of net/url `getScheme`'s scanning loop. `none` is the
"missing protocol scheme" error; an input with no scheme comes back as
`([], orig)`; otherwise `(scheme, rest after the colon)`. `acc` holds the
characters read so far, so `acc = []` is Go's `i == 0`. -/
def getSchemeLoop (orig : Str) (acc : Str) : Str → Option (Str × Str)
  | [] => some ([], orig)
  | c :: rest =>
    if isAlpha c then getSchemeLoop orig (c :: acc) rest
    else if isDigit c || ['+', '-', '.'].contains c then
      if acc = [] then some ([], orig) else getSchemeLoop orig (c :: acc) rest
    else if c = ':' then
      if acc = [] then none else some (acc.reverse, rest)
    else some ([], orig)

/-- ASCII lower-casing (`strings.ToLower`, applied by `parse` to the
scheme). -/
def toLowerAscii (s : Str) : Str :=
  s.map fun c => if 65 ≤ c.toNat && c.toNat ≤ 90 then Char.ofNat (c.toNat + 32) else c

/-- Model of net/url `validOptionalPort`. -/
def validOptionalPort (p : Str) : Bool :=
  match p with
  | [] => true
  | ':' :: rest => rest.all isDigit
  | _ => false

/-- The suffix of `s` starting at its last colon, when one exists
(net/url's `strings.LastIndex(host, ":")`). -/
def lastColonSuffix : Str → Option Str
  | [] => none
  | c :: rest =>
    match lastColonSuffix rest with
    | some t => some t
    | none => if c = ':' then some (c :: rest) else none

/-- Model of net/url `parseHost`: validate an optional port, decode
percent-escapes (see the module comment for the simplification on
bracketed hosts). -/
def parseHost (h : Str) : Option Str :=
  if h.head? = some '[' then
    if h.getLast? = some ']' then unescapePercent h else none
  else
    match lastColonSuffix h with
    | some cp => if validOptionalPort cp then unescapePercent h else none
    | none => unescapePercent h

/-- Split at the last `@`, when one exists (net/url `parseAuthority`'s
`strings.LastIndex(authority, "@")`). -/
def lastAtSplit : Str → Option (Str × Str)
  | [] => none
  | c :: rest =>
    match lastAtSplit rest with
    | some p => some (c :: p.1, p.2)
    | none => if c = '@' then some ([], rest) else none

/-- Model of net/url `validUserinfo`. -/
def validUserinfo (s : Str) : Bool :=
  s.all fun c =>
    isAlpha c || isDigit c ||
      ['-', '.', '_', ':', '~', '!', '$', '&', Char.ofNat 39, '(', ')', '*',
        '+', ',', ';', '=', '%', '@'].contains c

/-- Model of net/url `parseAuthority`: `(userinfo, host)`, `none` on error.
The userinfo is kept raw. -/
def parseAuthority (authority : Str) : Option (Option Str × Str) :=
  match lastAtSplit authority with
  | none => (parseHost authority).map fun h => (none, h)
  | some p =>
    match parseHost p.2 with
    | none => none
    | some h => if validUserinfo p.1 then some (some p.1, h) else none

/-- The URL record of net/url, with the raw (still-escaped) shadow fields Go
keeps. `opq` models the field Go names Opaque. -/
structure GoURL where
  scheme : Str := []
  opq : Str := []
  user : Option Str := none
  host : Str := []
  path : Str := []
  rawPath : Str := []
  forceQuery : Bool := false
  rawQuery : Str := []
  fragment : Str := []
  rawFragment : Str := []
deriving DecidableEq

/-- Model of net/url `URL.setPath`: `(decoded path, RawPath)`. -/
def setPath (p : Str) : Option (Str × Str) :=
  (unescapePercent p).map fun dec =>
    (dec, if escapeWith isPathUnescaped dec = p then [] else p)

/-- Model of net/url `parse(rawURL, viaRequest=false)`; the fragment is
handled by `urlParse`. -/
def urlParseCore (s : Str) : Option GoURL :=
  if s.any isCtlByte then none
  else if s = ['*'] then some { path := ['*'] }
  else
    match getSchemeLoop s [] s with
    | none => none
    | some pr =>
      let scheme := toLowerAscii pr.1
      let fq : Bool := (pr.2.getLast? == some '?') && !(strContains '?' pr.2.dropLast)
      let rest1 := if fq then pr.2.dropLast else (splitFirst '?' pr.2).1
      let rawQ := if fq then [] else (splitFirst '?' pr.2).2
      if scheme ≠ [] ∧ rest1.head? ≠ some '/' then
        some { scheme := scheme, opq := rest1, forceQuery := fq, rawQuery := rawQ }
      else if scheme = [] ∧ rest1.head? ≠ some '/' ∧
          strContains ':' (splitFirst '/' rest1).1 = true then none
      else if (scheme ≠ [] ∨ hasPrefix rest1 ['/', '/', '/'] = false) ∧
          hasPrefix rest1 ['/', '/'] = true then
        let a0 := rest1.drop 2
        let auth := (splitFirst '/' a0).1
        let rest2 := a0.drop auth.length
        match parseAuthority auth with
        | none => none
        | some uh =>
          match setPath rest2 with
          | none => none
          | some pq =>
            some { scheme := scheme, user := uh.1, host := uh.2, path := pq.1,
                   rawPath := pq.2, forceQuery := fq, rawQuery := rawQ }
      else
        match setPath rest1 with
        | none => none
        | some pq =>
          some { scheme := scheme, path := pq.1, rawPath := pq.2,
                 forceQuery := fq, rawQuery := rawQ }

/-- Model of net/url `Parse`: cut the fragment, parse the rest, set the
fragment. -/
def urlParse (s : Str) : Option GoURL :=
  match urlParseCore (splitFirst '#' s).1 with
  | none => none
  | some url =>
    if (splitFirst '#' s).2 = [] then some url
    else
      match unescapePercent (splitFirst '#' s).2 with
      | none => none
      | some dec =>
        some { url with
               fragment := dec,
               rawFragment :=
                 if escapeWith isFragmentUnescaped dec = (splitFirst '#' s).2
                 then [] else (splitFirst '#' s).2 }

/-- Model of net/url `URL.EscapedPath`. -/
def escapedPathOf (u : GoURL) : Str :=
  if u.rawPath ≠ [] ∧ validEncodedWith isPathUnescaped u.rawPath = true ∧
      unescapePercent u.rawPath = some u.path
  then u.rawPath
  else escapeWith isPathUnescaped u.path

/-- Model of net/url `URL.EscapedFragment`. -/
def escapedFragmentOf (u : GoURL) : Str :=
  if u.rawFragment ≠ [] ∧ validEncodedWith isFragmentUnescaped u.rawFragment = true ∧
      unescapePercent u.rawFragment = some u.fragment
  then u.rawFragment
  else escapeWith isFragmentUnescaped u.fragment

/-- Model of net/url `URL.String`. -/
def urlString (u : GoURL) : Str :=
  let schemePart := if u.scheme ≠ [] then u.scheme ++ [':'] else []
  let body :=
    if u.opq ≠ [] then schemePart ++ u.opq
    else
      let hostPart :=
        if u.scheme ≠ [] ∨ u.host ≠ [] ∨ u.user ≠ none then
          (if u.host ≠ [] ∨ u.path ≠ [] ∨ u.user ≠ none then ['/', '/'] else [])
            ++ (match u.user with
                | some ui => escapeWith isUserUnescaped ui ++ ['@']
                | none => [])
            ++ escapeWith isHostUnescaped u.host
        else []
      let p0 := escapedPathOf u
      let p1 := if p0 ≠ [] ∧ p0.head? ≠ some '/' ∧ u.host ≠ [] then '/' :: p0 else p0
      let pre := schemePart ++ hostPart
      let p2 :=
        if pre = [] ∧ strContains ':' (splitFirst '/' p1).1 = true
        then '.' :: '/' :: p1 else p1
      pre ++ p2
  body ++ (if u.forceQuery ∨ u.rawQuery ≠ [] then '?' :: u.rawQuery else [])
       ++ (if u.fragment ≠ [] then '#' :: escapedFragmentOf u else [])

/-- The `vanityImport` record of main.go:300-304. `pathLen` is a `Nat`: the
program only ever stores the non-negative counts computed at
main.go:276-280. -/
structure vanityImport where
  Import : Str
  RepoURL : Str
  pathLen : Nat
deriving DecidableEq

/-- Model of `vanityImport.ImportPrefix` (main.go:306-316). The outer
`Option` models a Go panic: `importPathSegments[:len(importPathSegments)-i.pathLen]`
has a negative bound when `pathLen` exceeds the segment count, and slicing
panics, which is `none` here; every normal return is `some`. A parse error
returns `some ""` (main.go:309). -/
def ImportPrefix (i : vanityImport) : Option Str :=
  match urlParse i.Import with
  | none => some []
  | some u =>
    let segs := goSplit '/' u.path
    if i.pathLen ≤ segs.length then
      some (urlString { u with path := goJoin '/' (segs.take (segs.length - i.pathLen)) })
    else none

/-! ### Well-formed declared import paths -/

/-- Characters of a declared Go import path as this development quantifies
over them: ASCII letters, digits, and `-._~/`. Such strings contain none of
the characters net/url treats specially (no scheme or port colon, no query,
fragment or escape markers, no control bytes). -/
def importChar (c : Char) : Bool :=
  isAlpha c || isDigit c || ['-', '_', '.', '~', '/'].contains c

/-- Well-formed declared import path: every character satisfies
`importChar`, and the string does not begin with `//` (which `url.Parse`
would read as an authority). -/
def wfImportPath (s : Str) : Prop :=
  (∀ c ∈ s, importChar c = true) ∧ hasPrefix s ['/', '/'] = false

theorem not_mem_of_importChar {s : Str} (h : ∀ c ∈ s, importChar c = true)
    {d : Char} (hd : importChar d = false) : d ∉ s := fun hm => by
  rw [h d hm] at hd
  exact absurd hd (by simp)

theorem importChar_cases {c : Char} (h : importChar c = true) :
    isAlpha c = true ∨ isDigit c = true ∨
      (c = '-' ∨ c = '_' ∨ c = '.' ∨ c = '~' ∨ c = '/') := by
  simp only [importChar, Bool.or_eq_true] at h
  rcases h with (ha | hd) | hm
  · exact Or.inl ha
  · exact Or.inr (Or.inl hd)
  · refine Or.inr (Or.inr ?_)
    simpa using hm

theorem isCtlByte_eq_false_of_importChar {c : Char} (h : importChar c = true) :
    isCtlByte c = false := by
  rcases importChar_cases h with ha | hd | hm
  · simp only [isAlpha, Bool.or_eq_true, Bool.and_eq_true, decide_eq_true_eq] at ha
    simp only [isCtlByte, Bool.or_eq_false_iff, decide_eq_false_iff_not, not_lt,
      beq_eq_false_iff_ne, ne_eq]
    omega
  · simp only [isDigit, Bool.and_eq_true, decide_eq_true_eq] at hd
    simp only [isCtlByte, Bool.or_eq_false_iff, decide_eq_false_iff_not, not_lt,
      beq_eq_false_iff_ne, ne_eq]
    omega
  · rcases hm with rfl | rfl | rfl | rfl | rfl <;> decide

theorem isPathUnescaped_of_importChar {c : Char} (h : importChar c = true) :
    isPathUnescaped c = true := by
  rcases importChar_cases h with ha | hd | hm
  · simp [isPathUnescaped, ha]
  · simp [isPathUnescaped, hd]
  · rcases hm with rfl | rfl | rfl | rfl | rfl <;> decide

theorem ne_of_importChar {c d : Char} (h : importChar c = true)
    (hd : importChar d = false) : c ≠ d := by
  rintro rfl
  rw [h] at hd
  exact absurd hd (by simp)

theorem getSchemeLoop_no_colon (orig : Str) (acc rem : Str)
    (h : strContains ':' rem = false) : getSchemeLoop orig acc rem = some ([], orig) := by
  induction rem generalizing acc with
  | nil => rfl
  | cons c cs ih =>
    simp only [strContains] at h
    by_cases hc : c = ':'
    · rw [if_pos hc] at h
      exact absurd h (by simp)
    · rw [if_neg hc] at h
      simp only [getSchemeLoop]
      by_cases h1 : isAlpha c = true
      · rw [if_pos h1]
        exact ih _ h
      · rw [if_neg h1]
        by_cases h2 : (isDigit c || ['+', '-', '.'].contains c) = true
        · rw [if_pos h2]
          by_cases h3 : acc = []
          · rw [if_pos h3]
          · rw [if_neg h3]
            exact ih _ h
        · rw [if_neg h2, if_neg hc]

theorem escapeWith_of_all (unesc : Char → Bool) (s : Str)
    (h : ∀ c ∈ s, unesc c = true) : escapeWith unesc s = s := by
  induction s with
  | nil => rfl
  | cons c cs ih =>
    have hc := h c (List.mem_cons_self _ _)
    simp [escapeWith, hc, ih fun d hd => h d (List.mem_cons_of_mem _ hd)]

theorem unescapePercent_of_no_pct (s : Str) (h : strContains '%' s = false) :
    unescapePercent s = some s := by
  induction s with
  | nil => rfl
  | cons c cs ih =>
    simp only [strContains] at h
    by_cases hc : c = '%'
    · rw [if_pos hc] at h
      exact absurd h (by simp)
    · rw [if_neg hc] at h
      have step : unescapePercent (c :: cs) = (unescapePercent cs).map (c :: ·) := by
        cases cs with
        | nil => simp [unescapePercent, hc]
        | cons a rest =>
          cases rest with
          | nil => simp [unescapePercent, hc]
          | cons b rest2 => simp [unescapePercent, hc]
      rw [step, ih h]
      rfl

theorem setPath_id (p : Str) (hp : strContains '%' p = false)
    (hu : ∀ c ∈ p, isPathUnescaped c = true) : setPath p = some (p, []) := by
  rw [setPath, unescapePercent_of_no_pct p hp]
  simp [escapeWith_of_all _ _ hu]

theorem urlParseCore_of_wf (s : Str) (hw : wfImportPath s) :
    urlParseCore s = some { path := s } := by
  obtain ⟨hc, hpre⟩ := hw
  have hColon : strContains ':' s = false :=
    (strContains_eq_false_iff _ _).mpr (not_mem_of_importChar hc (by decide))
  have hQ : strContains '?' s = false :=
    (strContains_eq_false_iff _ _).mpr (not_mem_of_importChar hc (by decide))
  have hPct : strContains '%' s = false :=
    (strContains_eq_false_iff _ _).mpr (not_mem_of_importChar hc (by decide))
  have hCtl : s.any isCtlByte = false := by
    rw [List.any_eq_false]
    intro x hx
    simp [isCtlByte_eq_false_of_importChar (hc x hx)]
  have hStar : ¬ s = ['*'] := by
    intro h
    have := hc '*' (by rw [h]; exact List.mem_cons_self _ _)
    exact absurd this (by decide)
  have hLast : (s.getLast? == some '?') = false := by
    cases h : s.getLast? with
    | none => rfl
    | some a =>
      have ha : a ∈ s := by
        rcases List.mem_getLast?_eq_getLast (Option.mem_def.mpr h) with ⟨hne, rfl⟩
        exact List.getLast_mem hne
      have : a ≠ '?' := ne_of_importChar (hc a ha) (by decide)
      simp [this]
  have hSF : splitFirst '?' s = (s, []) := splitFirst_of_not_contains _ _ hQ
  have hseg : strContains ':' (splitFirst '/' s).1 = false := by
    rw [strContains_eq_false_iff]
    intro hm
    exact (strContains_eq_false_iff ':' s).mp hColon (mem_of_mem_splitFirst_fst hm)
  have hsp : setPath s = some (s, []) :=
    setPath_id s hPct fun d hd => isPathUnescaped_of_importChar (hc d hd)
  rw [urlParseCore]
  rw [if_neg (by rw [hCtl]; exact Bool.false_ne_true)]
  rw [if_neg hStar]
  rw [getSchemeLoop_no_colon s [] s hColon]
  simp only [toLowerAscii, List.map_nil, hLast, Bool.false_and, Bool.false_eq_true,
    if_false, hSF]
  rw [if_neg (by simp)]
  rw [if_neg (by simp [hseg])]
  rw [if_neg (by simp [hpre])]
  rw [hsp]

theorem urlParse_of_wf (s : Str) (hw : wfImportPath s) :
    urlParse s = some { path := s } := by
  have hH : strContains '#' s = false :=
    (strContains_eq_false_iff _ _).mpr (not_mem_of_importChar hw.1 (by decide))
  rw [urlParse, splitFirst_of_not_contains _ _ hH]
  simp [urlParseCore_of_wf s hw]

theorem urlString_pathOnly (Q : Str) (hQ : ∀ c ∈ Q, isPathUnescaped c = true)
    (hcol : strContains ':' (splitFirst '/' Q).1 = false) :
    urlString { path := Q } = Q := by
  simp only [urlString, escapedPathOf]
  simp [escapeWith_of_all _ _ hQ, hcol]

theorem importChar_of_mem_join_take (P : Str) (hc : ∀ c ∈ P, importChar c = true)
    (k : Nat) {x : Char} (hx : x ∈ goJoin '/' ((goSplit '/' P).take k)) :
    importChar x = true := by
  rcases mem_of_mem_goJoin hx with ⟨t, ht, hxt⟩ | rfl
  · exact hc x (mem_of_mem_goSplit (List.mem_of_mem_take ht) hxt)
  · decide

/-- Shared computation behind C1 and C2: on a well-formed declared import
path the parse, truncate, re-render pipeline of `ImportPrefix` equals the
direct drop-the-last-`d`-segments string operation. -/
theorem ImportPrefix_wf_eq (P R : Str) (d : Nat) (hw : wfImportPath P)
    (hd : d ≤ (goSplit '/' P).length) :
    ImportPrefix ⟨P, R, d⟩ =
      some (goJoin '/' ((goSplit '/' P).take ((goSplit '/' P).length - d))) := by
  rw [ImportPrefix, urlParse_of_wf P hw]
  simp only
  rw [if_pos hd]
  congr 1
  apply urlString_pathOnly
  · intro c hcQ
    exact isPathUnescaped_of_importChar (importChar_of_mem_join_take P hw.1 _ hcQ)
  · rw [strContains_eq_false_iff]
    intro hm
    have := importChar_of_mem_join_take P hw.1 _ (mem_of_mem_splitFirst_fst hm)
    exact absurd this (by decide)

/-- C1: for every declared import path `P` (well-formed per `wfImportPath`)
and every depth `d` with `0 ≤ d ≤` the number of `/`-separated segments of
`P`'s path component, `vanityImport.ImportPrefix` (main.go:306-316) returns
`P` with its last `d` segments removed and the remainder rejoined by `/`. -/
theorem C1_importRoot_drops_last_d_segments (P R : Str) (d : Nat)
    (hw : wfImportPath P) (hd : d ≤ (goSplit '/' P).length) :
    ImportPrefix ⟨P, R, d⟩ =
      some (goJoin '/' ((goSplit '/' P).take ((goSplit '/' P).length - d))) :=
  ImportPrefix_wf_eq P R d hw hd

/-- C1 witness: the spec's example, prefix depth 2 under
`example.com/org/repo/sub/pkg`. -/
theorem C1_witness :
    ImportPrefix ⟨"example.com/org/repo/sub/pkg".toList, [], 2⟩ =
      some ("example.com/org/repo".toList) := by
  have h := C1_importRoot_drops_last_d_segments
    ("example.com/org/repo/sub/pkg".toList) [] 2 ⟨by decide, by decide⟩ (by decide)
  rw [h]
  rfl

/-- C2: with depth 0, `vanityImport.ImportPrefix` is the identity on every
declared import path (well-formed per `wfImportPath`). -/
theorem C2_identity_at_depth_zero (P R : Str) (hw : wfImportPath P) :
    ImportPrefix ⟨P, R, 0⟩ = some P := by
  rw [ImportPrefix_wf_eq P R 0 hw (Nat.zero_le _), Nat.sub_zero,
    List.take_length, goJoin_goSplit]

/-- C2 witness at a concrete declared import path. -/
theorem C2_witness :
    ImportPrefix ⟨"pack.ag/tftp".toList, [], 0⟩ = some ("pack.ag/tftp".toList) :=
  C2_identity_at_depth_zero ("pack.ag/tftp".toList) [] ⟨by decide, by decide⟩

/-- C3: whenever the declared import path fails to parse (`url.Parse`
errors), `vanityImport.ImportPrefix` returns the empty string rather than
signalling an error or panicking (main.go:307-310). -/
theorem C3_parse_failure_yields_empty (im R : Str) (d : Nat)
    (h : urlParse im = none) : ImportPrefix ⟨im, R, d⟩ = some [] := by
  rw [ImportPrefix, h]

/-- C3 witness: `":x"` has a colon at position zero, the "missing protocol
scheme" parse error. -/
theorem C3_witness : ImportPrefix ⟨":x".toList, [], 0⟩ = some [] :=
  C3_parse_failure_yields_empty (":x".toList) [] 0 (by decide)

/-- C4 counterexample: with Import `"a"` (one segment) and pathLen 2 the Go
slice bound `len(segments)-pathLen` is negative, so the slice expression at
main.go:313 panics (`none` in this model); `ImportPrefix` is not total for
every non-negative pathLen. -/
theorem C4_counterexample : ImportPrefix ⟨"a".toList, [], 2⟩ = none := by
  decide

/-- C4 amended: `ImportPrefix` returns a string without panicking for every
`vanityImport` whose Import parses and whose pathLen is at most the number
of `/`-separated segments of the parsed path. -/
theorem C4_total_when_pathLen_le_segments (i : vanityImport) (u : GoURL)
    (hu : urlParse i.Import = some u)
    (hlen : i.pathLen ≤ (goSplit '/' u.path).length) :
    (ImportPrefix i).isSome = true := by
  rw [ImportPrefix, hu]
  simp [hlen]

/-- C4 witness: pathLen 1 on the one-segment path `"a"`. -/
theorem C4_witness : (ImportPrefix ⟨"a".toList, [], 1⟩).isSome = true :=
  C4_total_when_pathLen_le_segments ⟨"a".toList, [], 1⟩ { path := "a".toList }
    (by decide) (by decide)

/-! ### The package extractor's depth computation and matching loop
(getVanityPackages, main.go:231-298)

The loop consumes the output lines of `go list -f={{ImportComment}}:{{Dir}}`
one at a time. The I/O around it (temporary directory, clone, symlink
resolution) is abstracted: `tmpDir` and the reported directories enter the
model as the already-symlink-resolved strings the program compares, and
`resolve` stands for a succeeding `filepath.EvalSymlinks` (a failing one
makes the whole call return an error and no packages at all). -/

/-- Model of `filepath.ToSlash` on a platform whose separator is `/` (the
identity there; the cutset of main.go:278 also lists the Windows separator,
which `trimLeftIn` receives below). -/
def toSlash (s : Str) : Str := s

/-- The forward-slash relative path of main.go:278:
`filepath.ToSlash(strings.TrimLeft(strings.TrimPrefix(dir, tmpDir), "/\\"))`
(the cutset holds `/` and the backslash, code point 92). -/
def relSlashPath (dir tmpDir : Str) : Str :=
  toSlash (trimLeftIn ['/', Char.ofNat 92] (trimPrefix dir tmpDir))

/-- The path-depth computation of main.go:276-280: 0 when the resolved
package directory equals the resolved temporary root, else the number of
`/`-separated segments of the relative path. -/
def pathDepth (dir tmpDir : Str) : Nat :=
  if dir = tmpDir then 0
  else (goSplit '/' (relSlashPath dir tmpDir)).length

/-- One iteration of the scanner loop at main.go:263-287 on one reported
line. The outer `Option` models the Go panic of `s[1]` when the line holds
no colon; `some none` is a skipped line; `some (some vi)` a match. -/
def processLine (base url tmpDir : Str) (resolve : Str → Str) (line : Str) :
    Option (Option vanityImport) :=
  if hasPrefix line base = false then some none
  else
    match (goSplit ':' line).get? 1 with
    | none => none
    | some rawDir =>
      some (some { Import := (goSplit ':' line).headI, RepoURL := url,
                   pathLen := pathDepth (resolve rawDir) tmpDir })

/-- The scanner loop of main.go:263-287 over all reported lines: `none`
when an iteration panics, otherwise the matched packages in order. -/
def vanityLoop (base url tmpDir : Str) (resolve : Str → Str) :
    List Str → Option (List vanityImport)
  | [] => some []
  | l :: ls =>
    match processLine base url tmpDir resolve l with
    | none => none
    | some none => vanityLoop base url tmpDir resolve ls
    | some (some vi) => (vanityLoop base url tmpDir resolve ls).map (vi :: ·)

/-- C5: the recorded path depth is 0 exactly when the resolved package
directory equals the resolved working-directory root, and otherwise equals
the number of `/`-separated segments of the forward-slash relative path;
being a `Nat` it is never negative. -/
theorem C5_pathDepth_zero_iff_root (dir tmpDir : Str) :
    (pathDepth dir tmpDir = 0 ↔ dir = tmpDir) ∧
      (dir ≠ tmpDir →
        pathDepth dir tmpDir = (goSplit '/' (relSlashPath dir tmpDir)).length) ∧
      0 ≤ pathDepth dir tmpDir := by
  refine ⟨?_, ?_, Nat.zero_le _⟩
  · constructor
    · intro h
      by_contra hne
      rw [pathDepth, if_neg hne] at h
      cases hsp : goSplit '/' (relSlashPath dir tmpDir) with
      | nil => exact goSplit_ne_nil _ _ hsp
      | cons a l => rw [hsp] at h; simp at h
    · intro h
      rw [pathDepth, if_pos h]
  · intro hne
    rw [pathDepth, if_neg hne]

theorem exists_append_of_hasPrefix {s p : Str} (h : hasPrefix s p = true) :
    ∃ t, s = p ++ t := by
  induction p generalizing s with
  | nil => exact ⟨s, rfl⟩
  | cons y ys ih =>
    cases s with
    | nil => simp [hasPrefix] at h
    | cons x xs =>
      simp only [hasPrefix] at h
      by_cases hxy : x = y
      · rw [if_pos hxy] at h
        obtain ⟨t, rfl⟩ := ih h
        exact ⟨t, by rw [hxy, List.cons_append]⟩
      · rw [if_neg hxy] at h
        exact absurd h (by simp)

theorem headI_goSplit_append (b t : Str) (hb : strContains ':' b = false) :
    (goSplit ':' (b ++ t)).headI = b ++ (goSplit ':' t).headI := by
  induction b with
  | nil => simp
  | cons x xs ih =>
    simp only [strContains] at hb
    by_cases hx : x = ':'
    · rw [if_pos hx] at hb
      exact absurd hb (by simp)
    · rw [if_neg hx] at hb
      rw [List.cons_append, goSplit_cons, if_neg hx]
      cases h : goSplit ':' (xs ++ t) with
      | nil => exact absurd h (goSplit_ne_nil _ _)
      | cons u us =>
        have ih' := ih hb
        rw [h] at ih'
        simp only [List.headI] at ih' ⊢
        simp [List.modifyHead, ih']

theorem hasPrefix_headI_of_hasPrefix_line {base line : Str}
    (hb : strContains ':' base = false) (h : hasPrefix line base = true) :
    hasPrefix (goSplit ':' line).headI base = true := by
  obtain ⟨t, rfl⟩ := exists_append_of_hasPrefix h
  rw [headI_goSplit_append base t hb]
  exact hasPrefix_append base _

theorem processLine_match_starts_with_base {base url tmpDir : Str}
    {resolve : Str → Str} {line : Str} {vi : vanityImport}
    (hb : strContains ':' base = false)
    (h : processLine base url tmpDir resolve line = some (some vi)) :
    hasPrefix vi.Import base = true := by
  rw [processLine] at h
  by_cases hl : hasPrefix line base = false
  · rw [if_pos hl] at h
    simp at h
  · rw [if_neg hl] at h
    have hl' : hasPrefix line base = true := by
      cases hh : hasPrefix line base
      · exact absurd hh hl
      · rfl
    cases hg : (goSplit ':' line).get? 1 with
    | none =>
      rw [hg] at h
      exact absurd h (by simp)
    | some rd =>
      rw [hg] at h
      injection h with h1
      injection h1 with h2
      rw [← h2]
      exact hasPrefix_headI_of_hasPrefix_line hb hl'

theorem vanityLoop_matches_start_with_base {base url tmpDir : Str}
    {resolve : Str → Str} {lines : List Str} {vis : List vanityImport}
    (hb : strContains ':' base = false)
    (hrun : vanityLoop base url tmpDir resolve lines = some vis) :
    ∀ vi ∈ vis, hasPrefix vi.Import base = true := by
  induction lines generalizing vis with
  | nil =>
    simp only [vanityLoop] at hrun
    injection hrun with h
    subst h
    intro vi hvi
    exact absurd hvi (List.not_mem_nil vi)
  | cons l ls ih =>
    simp only [vanityLoop] at hrun
    cases hp : processLine base url tmpDir resolve l with
    | none =>
      rw [hp] at hrun
      exact absurd hrun (by simp)
    | some o =>
      rw [hp] at hrun
      cases o with
      | none => exact ih hrun
      | some vi0 =>
        cases hv : vanityLoop base url tmpDir resolve ls with
        | none =>
          rw [hv] at hrun
          exact absurd hrun (by simp)
        | some vs =>
          rw [hv] at hrun
          simp only [Option.map_some'] at hrun
          injection hrun with h
          subst h
          intro vi hvi
          rcases List.mem_cons.mp hvi with rfl | hvi'
          · exact processLine_match_starts_with_base hb hp
          · exact ih hv vi hvi'

/-- C6 counterexample: with prefix `"a:b"` (a prefix holding a colon) the
reported line `"a:b:/t/x"` is matched — the line starts with the prefix —
but the recorded declared import path is `"a"`, which does not start with
the prefix; the claim fails for that prefix. -/
theorem C6_counterexample :
    vanityLoop "a:b".toList "u".toList "/t".toList id ["a:b:/t/x".toList] =
        some [{ Import := "a".toList, RepoURL := "u".toList, pathLen := 1 }] ∧
      hasPrefix "a".toList "a:b".toList = false := by
  decide

/-- C6 amended: provided the prefix contains no colon (true of every
host-based vanity prefix), every matched package's declared import path
starts with the prefix, and every reported line whose declared import path
(the text before the first colon) does not start with the prefix is
skipped. -/
theorem C6_colonfree_base_filters_by_import
    (base url tmpDir : Str) (resolve : Str → Str) (lines : List Str)
    (vis : List vanityImport) (hb : strContains ':' base = false)
    (hrun : vanityLoop base url tmpDir resolve lines = some vis) :
    (∀ vi ∈ vis, hasPrefix vi.Import base = true) ∧
      (∀ line ∈ lines, hasPrefix (goSplit ':' line).headI base = false →
        processLine base url tmpDir resolve line = some none) := by
  refine ⟨vanityLoop_matches_start_with_base hb hrun, ?_⟩
  intro line _ hnp
  have hlb : hasPrefix line base = false := by
    cases h : hasPrefix line base
    · rfl
    · rw [hasPrefix_headI_of_hasPrefix_line hb h] at hnp
      exact absurd hnp (by simp)
  rw [processLine, if_pos hlb]

/-- The matched-package list of the C6 witness run. -/
def c6Packages : List vanityImport :=
  [{ Import := "pack.ag/tftp".toList, RepoURL := "u".toList, pathLen := 1 }]

/-- The reported lines of the C6 witness run: one matching, one not. -/
def c6Lines : List Str :=
  ["pack.ag/tftp:/t/x".toList, "other.com/x:/t/y".toList]

/-- C6 witness: prefix `"pack.ag"`, one matching and one non-matching
line. -/
theorem C6_witness :
    (∀ vi ∈ c6Packages, hasPrefix vi.Import "pack.ag".toList = true) ∧
      (∀ line ∈ c6Lines,
        hasPrefix (goSplit ':' line).headI "pack.ag".toList = false →
        processLine "pack.ag".toList "u".toList "/t".toList id line = some none) :=
  C6_colonfree_base_filters_by_import "pack.ag".toList "u".toList "/t".toList id
    c6Lines c6Packages (by decide) (by decide)

/-! ### The page emitter's output path (vanityImport.htmlPath, main.go:318-320) -/

/-- One pass of the lexical cleanup of `path/filepath.Clean` (Unix rules),
formulated on `/`-separated segments: empty and `.` segments vanish, `..`
pops a previous real segment, is dropped at the root of a rooted path, and
is kept otherwise. `stk` is the output stack, most recent segment first. -/
def cleanStack (rooted : Bool) : List Str → List Str → List Str
  | stk, [] => stk
  | stk, seg :: rest =>
    if seg = [] ∨ seg = ['.'] then cleanStack rooted stk rest
    else if seg = ['.', '.'] then
      match stk with
      | [] =>
        if rooted then cleanStack rooted [] rest
        else cleanStack rooted [['.', '.']] rest
      | top :: stk' =>
        if top = ['.', '.'] then cleanStack rooted (['.', '.'] :: top :: stk') rest
        else cleanStack rooted stk' rest
    else cleanStack rooted (seg :: stk) rest

/-- Model of `path/filepath.Clean` for `/`-separated paths (the Plan 9
lexical algorithm of the Go standard library, in segment formulation): an
empty path cleans to `.`, a rooted path keeps its leading `/`, and an
unrooted path whose segments all vanish cleans to `.`. -/
def goClean (p : Str) : Str :=
  if p = [] then ['.']
  else if hasPrefix p ['/'] then
    '/' :: goJoin '/' (cleanStack true [] (goSplit '/' p)).reverse
  else if goJoin '/' (cleanStack false [] (goSplit '/' p)).reverse = [] then ['.']
  else goJoin '/' (cleanStack false [] (goSplit '/' p)).reverse

/-- Model of `filepath.Join(dir, name)` with two arguments (Unix): skip
empty elements, join with `/`, `Clean` the result (called at main.go:319). -/
def goJoin2 (a b : Str) : Str :=
  if a ≠ [] then goClean (a ++ '/' :: b)
  else if b ≠ [] then goClean b
  else []

/-- Model of `vanityImport.htmlPath` (main.go:318-320):
`filepath.Join(dir, strings.TrimPrefix(i.Import, base)) + ".html"`. -/
def htmlPath (i : vanityImport) (base dir : Str) : Str :=
  goJoin2 dir (trimPrefix i.Import base) ++ ".html".toList

/-- A plain path segment: nonempty, not `.` or `..`, no separator inside. -/
def plainSeg (s : Str) : Prop :=
  s ≠ [] ∧ s ≠ ['.'] ∧ s ≠ ['.', '.'] ∧ '/' ∉ s

instance (s : Str) : Decidable (plainSeg s) := by
  unfold plainSeg
  infer_instance

theorem goJoin_append (c : Char) (A B : List Str) (hA : A ≠ []) (hB : B ≠ []) :
    goJoin c (A ++ B) = goJoin c A ++ c :: goJoin c B := by
  induction A with
  | nil => exact absurd rfl hA
  | cons a as ih =>
    rw [List.cons_append, goJoin_cons, goJoin_cons]
    by_cases has : as = []
    · subst has
      simp [hB, goJoin_cons]
    · rw [if_neg has, if_neg (by simp [has] : ¬ (as ++ B = []))]
      rw [ih has]
      simp

theorem goJoin_cons_exists (c : Char) (a : Str) (as : List Str) :
    ∃ t, goJoin c (a :: as) = a ++ t := by
  rw [goJoin_cons]
  by_cases h : as = []
  · exact ⟨[], by simp [h]⟩
  · exact ⟨c :: goJoin c as, by simp [h]⟩

theorem cleanStack_plain (rooted : Bool) (segs : List Str)
    (h : ∀ s ∈ segs, s = [] ∨ plainSeg s) : ∀ stk : List Str,
    cleanStack rooted stk segs = (segs.filter (fun s => !s.isEmpty)).reverse ++ stk := by
  induction segs with
  | nil => intro stk; simp [cleanStack]
  | cons seg rest ih =>
    intro stk
    rcases h seg (List.mem_cons_self _ _) with rfl | hp
    · rw [cleanStack.eq_def]
      simp only []
      rw [if_pos (Or.inl trivial)]
      rw [ih (fun s hs => h s (List.mem_cons_of_mem _ hs)) stk]
      simp
    · obtain ⟨h1, h2, h3, _⟩ := hp
      rw [cleanStack.eq_def]
      simp only []
      rw [if_neg (by tauto), if_neg h3]
      rw [ih (fun s hs => h s (List.mem_cons_of_mem _ hs)) (seg :: stk)]
      rw [List.filter_cons_of_pos (by simpa using h1)]
      simp

theorem goJoin2_wellformed (rooted : Bool) (dsegs rsegs : List Str)
    (hdseg : dsegs ≠ []) (hdp : ∀ s ∈ dsegs, plainSeg s)
    (hrseg : rsegs ≠ []) (hrp : ∀ s ∈ rsegs, plainSeg s) :
    goJoin2 ((if rooted then ['/'] else []) ++ goJoin '/' dsegs)
        ('/' :: goJoin '/' rsegs)
      = ((if rooted then ['/'] else []) ++ goJoin '/' dsegs)
          ++ '/' :: goJoin '/' rsegs := by
  obtain ⟨d0, ds, rfl⟩ : ∃ d0 ds, dsegs = d0 :: ds := by
    cases dsegs with
    | nil => exact absurd rfl hdseg
    | cons a l => exact ⟨a, l, rfl⟩
  have hd0 := hdp d0 (List.mem_cons_self _ _)
  obtain ⟨c0, d0t, rfl⟩ : ∃ c0 d0t, d0 = c0 :: d0t := by
    cases d0 with
    | nil => exact absurd rfl hd0.1
    | cons a l => exact ⟨a, l, rfl⟩
  have hc0 : c0 ≠ '/' := fun h => hd0.2.2.2 (h ▸ List.mem_cons_self _ _)
  obtain ⟨t0, ht0⟩ := goJoin_cons_exists '/' (c0 :: d0t) ds
  have hDne : goJoin '/' ((c0 :: d0t) :: ds) ≠ [] := by
    rw [ht0]; simp
  have hfilterR : rsegs.filter (fun s => !s.isEmpty) = rsegs :=
    List.filter_eq_self.mpr (fun a ha => by
      have h1 := (hrp a ha).1
      cases a with
      | nil => exact absurd rfl h1
      | cons x xs => simp)
  have hfilterD : ((c0 :: d0t) :: ds).filter (fun s => !s.isEmpty) = (c0 :: d0t) :: ds :=
    List.filter_eq_self.mpr (fun a ha => by
      have h1 := (hdp a ha).1
      cases a with
      | nil => exact absurd rfl h1
      | cons x xs => simp)
  have hfilterCore : ((((c0 :: d0t) :: ds) ++ ([] : Str) :: rsegs)).filter
      (fun s => !s.isEmpty) = ((c0 :: d0t) :: ds) ++ rsegs := by
    rw [List.filter_append, hfilterD]
    simp [hfilterR]
  have hmemCore : ∀ l ∈ (((c0 :: d0t) :: ds) ++ ([] : Str) :: rsegs), '/' ∉ l := by
    intro l hl
    rcases List.mem_append.mp hl with h3 | h4
    · exact (hdp l h3).2.2.2
    · rcases List.mem_cons.mp h4 with rfl | h5
      · simp
      · exact (hrp l h5).2.2.2
  have hepoCore : ∀ s ∈ (((c0 :: d0t) :: ds) ++ ([] : Str) :: rsegs),
      s = [] ∨ plainSeg s := by
    intro l hl
    rcases List.mem_append.mp hl with h3 | h4
    · exact Or.inr (hdp l h3)
    · rcases List.mem_cons.mp h4 with rfl | h5
      · exact Or.inl rfl
      · exact Or.inr (hrp l h5)
  have hjoinR : goJoin '/' (([] : Str) :: rsegs) = '/' :: goJoin '/' rsegs := by
    rw [goJoin_cons, if_neg hrseg]
    rfl
  have harg : goJoin '/' ((c0 :: d0t) :: ds) ++ '/' :: '/' :: goJoin '/' rsegs
      = goJoin '/' (((c0 :: d0t) :: ds) ++ ([] : Str) :: rsegs) := by
    rw [goJoin_append '/' _ _ (by simp) (by simp), hjoinR]
  obtain ⟨t1, ht1⟩ := goJoin_cons_exists '/' (c0 :: d0t) (ds ++ ([] : Str) :: rsegs)
  have hpform : goJoin '/' (((c0 :: d0t) :: ds) ++ ([] : Str) :: rsegs)
      = c0 :: (d0t ++ t1) := by
    rw [List.cons_append, ht1]
    simp
  have hbody : goJoin '/' (((c0 :: d0t) :: ds) ++ rsegs)
      = goJoin '/' ((c0 :: d0t) :: ds) ++ '/' :: goJoin '/' rsegs :=
    goJoin_append '/' _ _ (by simp) hrseg
  obtain ⟨t2, ht2⟩ := goJoin_cons_exists '/' (c0 :: d0t) (ds ++ rsegs)
  have hbodyne : goJoin '/' (((c0 :: d0t) :: ds) ++ rsegs) ≠ [] := by
    rw [List.cons_append, ht2]
    simp
  have hsplitCore : goSplit '/' (goJoin '/' (((c0 :: d0t) :: ds) ++ ([] : Str) :: rsegs))
      = ((c0 :: d0t) :: ds) ++ ([] : Str) :: rsegs :=
    goSplit_goJoin '/' _ hmemCore (by simp)
  cases rooted
  · -- not rooted
    simp only [Bool.false_eq_true, if_false, List.nil_append]
    rw [goJoin2, if_pos hDne, harg, goClean]
    rw [if_neg (by rw [hpform]; simp)]
    rw [if_neg (by rw [hpform]; simp [hasPrefix, hc0])]
    rw [hsplitCore, cleanStack_plain false _ hepoCore []]
    rw [List.append_nil, List.reverse_reverse, hfilterCore, hbody]
    rw [if_neg (by rw [hbody] at hbodyne; exact hbodyne)]
  · -- rooted
    simp only [if_true, List.singleton_append]
    rw [goJoin2, if_pos (by simp)]
    have hpform2 : goJoin '/' (([] : Str) :: (((c0 :: d0t) :: ds) ++ ([] : Str) :: rsegs))
        = '/' :: goJoin '/' (((c0 :: d0t) :: ds) ++ ([] : Str) :: rsegs) := by
      rw [goJoin_cons, if_neg (by simp)]
      rfl
    have harg2 : ('/' :: goJoin '/' ((c0 :: d0t) :: ds)) ++ '/' :: '/' :: goJoin '/' rsegs
        = goJoin '/' (([] : Str) :: (((c0 :: d0t) :: ds) ++ ([] : Str) :: rsegs)) := by
      rw [hpform2, List.cons_append, harg]
    have hsplit2 : goSplit '/' (goJoin '/' (([] : Str) :: (((c0 :: d0t) :: ds) ++ ([] : Str) :: rsegs)))
        = ([] : Str) :: (((c0 :: d0t) :: ds) ++ ([] : Str) :: rsegs) :=
      goSplit_goJoin '/' _ (by
        intro l hl
        rcases List.mem_cons.mp hl with rfl | h5
        · simp
        · exact hmemCore l h5) (by simp)
    rw [show ('/' :: goJoin '/' ((c0 :: d0t) :: ds)) ++ '/' :: '/' :: goJoin '/' rsegs
        = goJoin '/' (([] : Str) :: (((c0 :: d0t) :: ds) ++ ([] : Str) :: rsegs)) from harg2]
    rw [goClean]
    rw [if_neg (by rw [hpform2]; simp)]
    rw [if_pos (by rw [hpform2]; simp [hasPrefix, hasPrefix_nil])]
    rw [hsplit2, cleanStack_plain true _ (by
      intro s hs
      rcases List.mem_cons.mp hs with rfl | h5
      · exact Or.inl rfl
      · exact hepoCore s h5) []]
    rw [List.append_nil, List.reverse_reverse]
    rw [List.filter_cons_of_neg (by simp), hfilterCore, hbody]
    rfl

/-- C7: for a matched package whose declared import path is the configured
prefix followed by a `/`-separated sub-path of plain segments, and an
output base directory of plain segments (optionally rooted), the emitter's
output file path (main.go:318-320) equals the output directory joined with
the prefix-stripped import path, with `.html` appended and the directory
separators preserved. -/
theorem C7_htmlPath_strips_base_appends_html
    (B url D : Str) (d : Nat) (rooted : Bool) (dsegs rsegs : List Str)
    (hD : D = (if rooted then ['/'] else []) ++ goJoin '/' dsegs)
    (hdseg : dsegs ≠ []) (hdp : ∀ s ∈ dsegs, plainSeg s)
    (hrseg : rsegs ≠ []) (hrp : ∀ s ∈ rsegs, plainSeg s) :
    htmlPath ⟨B ++ '/' :: goJoin '/' rsegs, url, d⟩ B D
      = D ++ ('/' :: goJoin '/' rsegs) ++ ".html".toList := by
  subst hD
  rw [htmlPath]
  rw [show (vanityImport.mk (B ++ '/' :: goJoin '/' rsegs) url d).Import
      = B ++ '/' :: goJoin '/' rsegs from rfl]
  rw [trimPrefix_append]
  rw [goJoin2_wellformed rooted dsegs rsegs hdseg hdp hrseg hrp]

/-- C7 witness: the spec's example, prefix `example.com`, import path
`example.com/repo/sub`, output directory `out`. -/
theorem C7_witness :
    htmlPath ⟨"example.com/repo/sub".toList, "u".toList, 0⟩
        "example.com".toList "out".toList = "out/repo/sub.html".toList := by
  have h := C7_htmlPath_strips_base_appends_html "example.com".toList "u".toList
      "out".toList 0 false ["out".toList] ["repo".toList, "sub".toList]
      (by decide) (by decide) (by decide) (by decide) (by decide)
  rw [show ("example.com/repo/sub".toList : Str)
      = "example.com".toList ++ '/' :: goJoin '/' ["repo".toList, "sub".toList] by decide]
  rw [h]
  decide

/-! ### The repository enumerator (getPotentialRepos, main.go:176-229)

The GitHub API is abstracted as two functions: `listRepos` models the
`Repositories.List` call and `listLanguages` the `Repositories.ListLanguages`
call; `none` models an API error, which the program logs and skips
(main.go:192-194, 216-219). -/

/-- The repository metadata the enumerator reads: name, fork flag, primary
language, clone URL (`GetSVNURL`). -/
structure ghRepo where
  name : Str
  fork : Bool
  language : Str
  svnURL : Str
deriving DecidableEq

/-- The per-repository decision of the scan loop (main.go:197-226): `none`
when the repository is skipped (explicitly listed, a fork, or not a Go
repository), otherwise its clone URL. -/
def scanRepo (searchRepos : List Str) (listLanguages : Str → Str → Option (List Str))
    (username : Str) (r : ghRepo) : Option Str :=
  if (username ++ '/' :: r.name) ∈ searchRepos then none
  else if r.fork then none
  else if r.language = "Go".toList then some r.svnURL
  else
    match listLanguages username r.name with
    | none => none
    | some langs => if "Go".toList ∈ langs then some r.svnURL else none

/-- Model of `getPotentialRepos` (main.go:176-229): entries with a `/` are
explicit repositories, included unconditionally as clone URLs and recorded
for deduplication; the remaining entries are owners, each scanned with
`scanRepo`. -/
def getPotentialRepos (search : List Str)
    (listRepos : Str → Option (List ghRepo))
    (listLanguages : Str → Str → Option (List Str)) : List Str :=
  (search.filter (fun v => strContains '/' v)).map
      (fun v => "https://github.com/".toList ++ v)
    ++ (search.filter (fun v => !(strContains '/' v))).flatMap
      (fun u =>
        match listRepos u with
        | none => []
        | some repos =>
          repos.filterMap
            (scanRepo (search.filter (fun v => strContains '/' v)) listLanguages u))

/-- C8: every search entry containing an owner/repository separator is
included unconditionally as a clone URL, and the owner scan contributes
nothing for a repository that is a fork or that was explicitly listed as
`owner/name` in the search list, even when the scan would otherwise match
it. -/
theorem C8_explicit_included_forks_and_listed_skipped (search : List Str)
    (listRepos : Str → Option (List ghRepo))
    (listLanguages : Str → Str → Option (List Str)) :
    (∀ v ∈ search, strContains '/' v = true →
      ("https://github.com/".toList ++ v)
        ∈ getPotentialRepos search listRepos listLanguages) ∧
    (∀ (u : Str) (r : ghRepo),
      ((u ++ '/' :: r.name) ∈ search.filter (fun v => strContains '/' v)
          ∨ r.fork = true) →
      scanRepo (search.filter (fun v => strContains '/' v)) listLanguages u r
        = none) := by
  constructor
  · intro v hv hsl
    rw [getPotentialRepos]
    apply List.mem_append_left
    exact List.mem_map_of_mem _ (List.mem_filter.mpr ⟨hv, hsl⟩)
  · intro u r hor
    rw [scanRepo]
    rcases hor with hmem | hfork
    · rw [if_pos hmem]
    · by_cases hmem : (u ++ '/' :: r.name) ∈ search.filter (fun v => strContains '/' v)
      · rw [if_pos hmem]
      · rw [if_neg hmem, if_pos hfork]

/-- The search list of the C8 witness run (the spec's example). -/
def c8Search : List Str :=
  ["alice".toList, "alice/forkrepo".toList, "bob/explicit-repo".toList]

/-- The language listing of the C8 witness run. -/
def c8Langs : Str → Str → Option (List Str) := fun _ _ => some ["Go".toList]

/-- C8 witness: `bob/explicit-repo` is always included; under owner
`alice`, a repository explicitly listed as `alice/forkrepo` and a fork are
both excluded from the scan. -/
theorem C8_witness :
    ("https://github.com/bob/explicit-repo".toList)
        ∈ getPotentialRepos c8Search (fun _ => none) c8Langs ∧
      scanRepo (c8Search.filter (fun v => strContains '/' v)) c8Langs
        "alice".toList ⟨"forkrepo".toList, false, "Go".toList, "x".toList⟩ = none ∧
      scanRepo (c8Search.filter (fun v => strContains '/' v)) c8Langs
        "alice".toList ⟨"fk".toList, true, "Go".toList, "y".toList⟩ = none := by
  have h := C8_explicit_included_forks_and_listed_skipped c8Search
    (fun _ => none) c8Langs
  exact ⟨h.1 ("bob/explicit-repo".toList) (by decide) (by decide),
    h.2 ("alice".toList) ⟨"forkrepo".toList, false, "Go".toList, "x".toList⟩
      (Or.inl (by decide)),
    h.2 ("alice".toList) ⟨"fk".toList, true, "Go".toList, "y".toList⟩
      (Or.inr rfl)⟩

/-! ### Configuration validation (config.Parse, main.go:152-174) -/

/-- ASCII whitespace, as Go `unicode.IsSpace` classifies the ASCII range
(space, tab, newline, vertical tab, form feed, carriage return). -/
def isSpaceChar (c : Char) : Bool :=
  c.toNat == 32 || c.toNat == 9 || c.toNat == 10 || c.toNat == 11 ||
    c.toNat == 12 || c.toNat == 13

/-- Drop leading whitespace. -/
def trimLeftSpace : Str → Str
  | [] => []
  | c :: rest => if isSpaceChar c then trimLeftSpace rest else c :: rest

/-- Model of Go `strings.TrimSpace` for ASCII input. -/
def trimSpace (s : Str) : Str :=
  (trimLeftSpace (trimLeftSpace s).reverse).reverse

/-- The flag/environment inputs that `config.Parse` reads. `pfx` is the
field Go names `prefix` (a reserved word here). -/
structure goConfig where
  pfx : Str
  search : Str
  out : Str
  githubToken : Str
  writeCNAME : Bool
deriving DecidableEq

/-- Whether a parse attempt succeeded. -/
def parseOk : Except Str (GoURL × List Str) → Bool
  | Except.ok _ => true
  | Except.error _ => false

/-- Model of `config.Parse` (main.go:152-174): reject an empty prefix,
parse `"//" + prefix` as a URL, reject an empty search string, and build
the search list from the comma-separated entries, trimmed, empties
dropped. The function never examines `out`. -/
def configParse (cfg : goConfig) : Except Str (GoURL × List Str) :=
  if cfg.pfx = [] then Except.error "must provide vanity URL prefix".toList
  else
    match urlParse ('/' :: '/' :: cfg.pfx) with
    | none => Except.error "invalid URL".toList
    | some u =>
      if cfg.search = [] then
        Except.error "search list must contain at least one entry".toList
      else
        Except.ok (u, ((goSplit ',' cfg.search).map trimSpace).filter
          (fun v => !v.isEmpty))

/-- C9: evaluation at the failing input. `config.Parse` rejects an empty
prefix and an empty search string, but never examines `out`: with prefix
`"p"`, search `"s"` and an empty `out` it succeeds, although the flag help
text (main.go:34) documents `out` as required and the spec makes an empty
`out` a validation failure. -/
theorem C9_out_never_validated :
    parseOk (configParse ⟨"p".toList, "s".toList, [], [], false⟩) = true ∧
      parseOk (configParse ⟨[], "s".toList, "o".toList, [], false⟩) = false ∧
      parseOk (configParse ⟨"p".toList, [], "o".toList, [], false⟩) = false := by
  decide

/-! ### The per-repository loop of run (main.go:78-140) -/

/-- The collection loop of run (main.go:100-114): repositories are
extracted in order; a failed extraction is recorded (the program prints it
with `continue`), a successful one appends its packages. The result is
`(all collected packages, the repositories whose extraction failed)`. -/
def collectLoop (extract : Str → Except Str (List vanityImport)) :
    List Str → List vanityImport × List Str
  | [] => ([], [])
  | r :: rest =>
    match extract r with
    | Except.error _ =>
      ((collectLoop extract rest).1, r :: (collectLoop extract rest).2)
    | Except.ok ps =>
      (ps ++ (collectLoop extract rest).1, (collectLoop extract rest).2)

/-- The result of run (main.go:78-140) once configuration and enumeration
have succeeded, with the per-file emission abstracted (each write failure
is logged and skipped, main.go:119-129): the collected packages are all
emitted, and the only remaining failure point is the optional CNAME write
(main.go:132-137). -/
def runModel (writeCNAME cnameOk : Bool)
    (extract : Str → Except Str (List vanityImport)) (repos : List Str) :
    Except Str (List vanityImport) :=
  if writeCNAME && !cnameOk then Except.error "writing CNAME file".toList
  else Except.ok (collectLoop extract repos).1

theorem collectLoop_ok_mem (extract : Str → Except Str (List vanityImport))
    (r : Str) (ps : List vanityImport) (hps : extract r = Except.ok ps) :
    ∀ repos : List Str, r ∈ repos → ∀ p ∈ ps, p ∈ (collectLoop extract repos).1 := by
  intro repos
  induction repos with
  | nil =>
    intro h
    exact absurd h (List.not_mem_nil r)
  | cons a rest ih =>
    intro hr p hp
    rcases List.mem_cons.mp hr with rfl | hr'
    · simp only [collectLoop, hps]
      exact List.mem_append_left _ hp
    · simp only [collectLoop]
      cases hea : extract a with
      | error e => simpa using ih hr' p hp
      | ok qs => exact List.mem_append_right _ (ih hr' p hp)

theorem collectLoop_err_mem (extract : Str → Except Str (List vanityImport))
    (r : Str) (e : Str) (he : extract r = Except.error e) :
    ∀ repos : List Str, r ∈ repos → r ∈ (collectLoop extract repos).2 := by
  intro repos
  induction repos with
  | nil =>
    intro h
    exact absurd h (List.not_mem_nil r)
  | cons a rest ih =>
    intro hr
    rcases List.mem_cons.mp hr with rfl | hr'
    · simp only [collectLoop, he]
      exact List.mem_cons_self _ _
    · simp only [collectLoop]
      cases hea : extract a with
      | error e2 => exact List.mem_cons_of_mem _ (ih hr')
      | ok qs => simpa using ih hr'

/-- C10: per-repository extraction failures are non-fatal. Every failing
repository is only logged (it lands in the failure list), every package of
every successful extraction is still collected and emitted, and run
returns nil (exit code 0) whenever the optional CNAME write is disabled or
succeeds — regardless of how many extractions failed. -/
theorem C10_partial_failure_keeps_running (writeCNAME cnameOk : Bool)
    (extract : Str → Except Str (List vanityImport)) (repos : List Str) :
    ((writeCNAME = false ∨ cnameOk = true) →
      runModel writeCNAME cnameOk extract repos
        = Except.ok (collectLoop extract repos).1) ∧
    (∀ r ∈ repos, ∀ ps, extract r = Except.ok ps →
      ∀ p ∈ ps, p ∈ (collectLoop extract repos).1) ∧
    (∀ r ∈ repos, ∀ e, extract r = Except.error e →
      r ∈ (collectLoop extract repos).2) := by
  refine ⟨?_, ?_, ?_⟩
  · intro h
    rw [runModel]
    rcases h with rfl | rfl
    · simp
    · simp
  · intro r hr ps hps p hp
    exact collectLoop_ok_mem extract r ps hps repos hr p hp
  · intro r hr e he
    exact collectLoop_err_mem extract r e he repos hr

/-- The extraction function of the C10 witness run: repository `b` fails,
`a` and `c` succeed with one package each. -/
def c10Extract : Str → Except Str (List vanityImport) := fun r =>
  if r = "b".toList then Except.error "clone failed".toList
  else Except.ok [{ Import := r, RepoURL := r, pathLen := 0 }]

/-- C10 witness: with repository 2 of 3 failing, run still returns nil and
the packages of repositories 1 and 3 are both collected. -/
theorem C10_witness :
    runModel false true c10Extract ["a".toList, "b".toList, "c".toList]
        = Except.ok (collectLoop c10Extract ["a".toList, "b".toList, "c".toList]).1 ∧
      ({ Import := "a".toList, RepoURL := "a".toList, pathLen := 0 } : vanityImport)
        ∈ (collectLoop c10Extract ["a".toList, "b".toList, "c".toList]).1 ∧
      ({ Import := "c".toList, RepoURL := "c".toList, pathLen := 0 } : vanityImport)
        ∈ (collectLoop c10Extract ["a".toList, "b".toList, "c".toList]).1 ∧
      "b".toList ∈ (collectLoop c10Extract ["a".toList, "b".toList, "c".toList]).2 := by
  have h := C10_partial_failure_keeps_running false true c10Extract
    ["a".toList, "b".toList, "c".toList]
  refine ⟨h.1 (Or.inl rfl), ?_, ?_, ?_⟩
  · exact h.2.1 ("a".toList) (by decide)
      [{ Import := "a".toList, RepoURL := "a".toList, pathLen := 0 }] rfl
      { Import := "a".toList, RepoURL := "a".toList, pathLen := 0 }
      (List.mem_cons_self _ _)
  · exact h.2.1 ("c".toList) (by decide)
      [{ Import := "c".toList, RepoURL := "c".toList, pathLen := 0 }] rfl
      { Import := "c".toList, RepoURL := "c".toList, pathLen := 0 }
      (List.mem_cons_self _ _)
  · exact h.2.2 ("b".toList) (by decide) ("clone failed".toList) rfl
